import Mathlib

/-!
Verification of the metal-spheres particle-dynamics core against its
specification.  The repository's visible sources are structural headers
(`PhysicsKernel.h`, `MSUniforms.h`): the `Particle` and `CenterOfMass`
records, the packed-`float4` decoding constructor of `CenterOfMass`, and
the `MAX_PARTICLES` limit.  The particle store, cluster reducer, force
accumulator, integrator and frame driver are specified but not among the
visible files; they are modelled here from the specification's words.
Scalars are modelled as real numbers (exact arithmetic in place of
`float`).
-/

open scoped Classical

/-- A 3-component vector (`simd_float3`), modelled as a triple of reals. -/
abbrev Vec3 : Type := ℝ × ℝ × ℝ

/-- Euclidean inner product of two 3-vectors. -/
def dot (v w : Vec3) : ℝ := v.1 * w.1 + v.2.1 * w.2.1 + v.2.2 * w.2.2

/-- Squared Euclidean length. -/
def norm2 (v : Vec3) : ℝ := dot v v

/-- Euclidean length. -/
noncomputable def vnorm (v : Vec3) : ℝ := Real.sqrt (norm2 v)

/-- A 4-component packed value (`float4`), the interchange format at the
serialization/compute boundary. -/
structure Float4 where
  x : ℝ
  y : ℝ
  z : ℝ
  w : ℝ

/-- The particle record of `PhysicsKernel.h`: mass, charge, and linear and
angular kinematic state. -/
structure Particle where
  mass : ℝ
  charge : ℝ
  position : Vec3
  velocity : Vec3
  acceleration : Vec3
  angular_velocity : Vec3
  angular_acceleration : Vec3

/-- The center-of-mass aggregate of `PhysicsKernel.h`: location of the
center of mass and total mass of the system under consideration. -/
structure CenterOfMass where
  pos : Vec3
  total_mass : ℝ

/-- The decoding constructor `CenterOfMass(float4 encoded_com)` of
`PhysicsKernel.h`: position is the `xyz` part, total mass the `w` slot. -/
def CenterOfMass.ofEncoded (encoded_com : Float4) : CenterOfMass :=
  { pos := (encoded_com.x, encoded_com.y, encoded_com.z)
    total_mass := encoded_com.w }

/-- Modelled from the spec: the packing half of the serialization boundary
(`xyz` = position, `w` = total mass); the encoder itself is not among the
visible files, only its decoding inverse is. -/
def CenterOfMass.encode (c : CenterOfMass) : Float4 :=
  { x := c.pos.1, y := c.pos.2.1, z := c.pos.2.2, w := c.total_mass }

/-- The population limit `#define MAX_PARTICLES 2e4` of `PhysicsKernel.h`
(the literal `2e4` denotes exactly 20000). -/
def MAX_PARTICLES : ℕ := 20000

/-- Errors of the Particle Store interface.  `CapacityExceeded` and
`IndexOutOfRange` are named by the spec; `InvalidMass` models the spec's
"violating particles are rejected at creation". -/
inductive StoreError where
  | CapacityExceeded
  | IndexOutOfRange
  | InvalidMass
deriving DecidableEq

/-- Modelled from the spec: the Particle Store, a contiguous indexable
population of particle records; its code is not among the visible files. -/
structure PStore where
  particles : List Particle

/-- Modelled from the spec: `create(population) -> Store` fails with
`CapacityExceeded` if the population exceeds `MAX_PARTICLES`, and rejects
any particle violating the `mass > 0` invariant; on failure no store is
created. -/
noncomputable def PStore.create (population : List Particle) :
    Except StoreError PStore :=
  if MAX_PARTICLES < population.length then .error .CapacityExceeded
  else if ∀ p ∈ population, 0 < p.mass then .ok ⟨population⟩
  else .error .InvalidMass

/-- Modelled from the spec: bounds-checked read access to the store. -/
def PStore.get (s : PStore) (i : ℕ) : Except StoreError Particle :=
  if h : i < s.particles.length then .ok (s.particles.get ⟨i, h⟩)
  else .error .IndexOutOfRange

/-- Modelled from the spec: bounds-checked write access; a write that
would break the `mass > 0` invariant is rejected ("never mutated into"). -/
noncomputable def PStore.set (s : PStore) (i : ℕ) (p : Particle) :
    Except StoreError PStore :=
  if i < s.particles.length then
    if 0 < p.mass then .ok ⟨s.particles.set i p⟩ else .error .InvalidMass
  else .error .IndexOutOfRange

/-- Modelled from the spec: the global physical constants (gravitational
constant, Coulomb constant, softening); compile-time constants of the
original, not among the visible files, so carried as parameters. -/
structure Consts where
  G_const : ℝ
  k_e : ℝ
  softening : ℝ

/-- Squared distance between two points. -/
def dist2 (a b : Vec3) : ℝ := norm2 (b - a)

/-- Unit vector pointing from `a` toward `b`. -/
noncomputable def unitDir (a b : Vec3) : Vec3 := (vnorm (b - a))⁻¹ • (b - a)

/-- Modelled from the spec: the gravitational pairwise contribution of `q`
to the force on `p`: magnitude `G_const * m_p * m_q / (r² + softening)`,
directed attractively along the line of centers (from `p` toward `q`). -/
noncomputable def gravForce (C : Consts) (p q : Particle) : Vec3 :=
  (C.G_const * p.mass * q.mass /
      (dist2 p.position q.position + C.softening)) •
    unitDir p.position q.position

/-- Modelled from the spec: the Coulomb pairwise contribution of `q` to
the force on `p`: magnitude `k_e * q_p * q_q / (r² + softening)` along the
line of centers, repulsive for same-sign charges and attractive for
opposite-sign charges. -/
noncomputable def coulombForce (C : Consts) (p q : Particle) : Vec3 :=
  (-(C.k_e * p.charge * q.charge) /
      (dist2 p.position q.position + C.softening)) •
    unitDir p.position q.position

/-- Modelled from the spec: the combined near-field pairwise force of `q`
on `p`: the gravitational and Coulomb radial terms share one direction
vector and are summed. -/
noncomputable def pairForce (C : Consts) (p q : Particle) : Vec3 :=
  gravForce C p q + coulombForce C p q

/-- Modelled from the spec: the near-field accumulation for particle `i`:
exact pairwise contributions from every other particle of the same group
(group of index `i` = `i / G`), the self-pair excluded. -/
noncomputable def nearForce (C : Consts) (G : ℕ) (ps : List Particle)
    (i : Fin ps.length) : Vec3 :=
  ∑ j : Fin ps.length,
    if j ≠ i ∧ j.val / G = i.val / G then
      pairForce C (ps.get i) (ps.get j)
    else 0

/-- Modelled from the spec: the gravitational contribution of a group's
aggregate, treated as a single virtual particle of its total mass at its
position, to the force on `p` (inverse-square law, softened). -/
noncomputable def aggForce (C : Consts) (p : Particle)
    (com : CenterOfMass) : Vec3 :=
  (C.G_const * p.mass * com.total_mass /
      (dist2 p.position com.pos + C.softening)) •
    unitDir p.position com.pos

/-- Modelled from the spec: the far-field accumulation for a particle `p`
of group `g`: gravitational aggregate contributions from every other
group, skipping any group whose total mass is zero; no Coulomb far-field
term exists. -/
noncomputable def farForce (C : Consts) (aggs : List CenterOfMass)
    (g : ℕ) (p : Particle) : Vec3 :=
  ∑ k : Fin aggs.length,
    if k.val ≠ g ∧ (aggs.get k).total_mass ≠ 0 then
      aggForce C p (aggs.get k)
    else 0

/-- Number of groups covering `n` particles at group size `G` (ceiling
division; the final group may be ragged). -/
def numGroups (G n : ℕ) : ℕ := (n + G - 1) / G

/-- The contiguous slice of particles assigned to group `k`. -/
def groupSlice (G : ℕ) (ps : List Particle) (k : ℕ) : List Particle :=
  (ps.drop (k * G)).take G

/-- Modelled from the spec: the per-group reduction: total mass is the sum
of the group's masses; the position is the mass-weighted centroid.  For a
group of zero total mass the position slot is arbitrary (the spec leaves
it undefined and forbids consumers from using it). -/
noncomputable def reduceGroup (ps : List Particle) : CenterOfMass :=
  { pos := ((ps.map Particle.mass).sum)⁻¹ •
      (ps.map (fun p => p.mass • p.position)).sum
    total_mass := (ps.map Particle.mass).sum }

/-- Modelled from the spec: the Cluster Reducer: one aggregate per
contiguous group of size `G`, ordered by group id. -/
noncomputable def reduce (G : ℕ) (ps : List Particle) :
    List CenterOfMass :=
  (List.range (numGroups G ps.length)).map
    (fun k => reduceGroup (groupSlice G ps k))

/-- Modelled from the spec: the Integrator's per-particle step: from the
accumulated net force compute the new acceleration `F / m`, then the new
velocity with that acceleration, then the new position with that velocity
(semi-implicit Euler ordering); mass, charge and angular state are left
untouched. -/
noncomputable def integrate (dt : ℝ) (F : Vec3) (p : Particle) :
    Particle :=
  let a : Vec3 := p.mass⁻¹ • F
  let v : Vec3 := p.velocity + dt • a
  { p with acceleration := a, velocity := v, position := p.position + dt • v }

/-- Modelled from the spec: the accumulated net force on particle `i`:
near field over its own group plus far field over the other groups'
aggregates. -/
noncomputable def totalForce (C : Consts) (G : ℕ) (ps : List Particle)
    (aggs : List CenterOfMass) (i : Fin ps.length) : Vec3 :=
  nearForce C G ps i + farForce C aggs (i.val / G) (ps.get i)

/-- Modelled from the spec: one frame tick: reduce, accumulate forces,
integrate every particle (forces all read the pre-tick state: the stages
are separated by full barriers). -/
noncomputable def tick (C : Consts) (G : ℕ) (dt : ℝ)
    (ps : List Particle) : List Particle :=
  List.ofFn (fun i : Fin ps.length =>
    integrate dt (totalForce C G ps (reduce G ps) i) (ps.get i))

/-- `k` consecutive frame ticks. -/
noncomputable def tickN (C : Consts) (G : ℕ) (dt : ℝ) :
    ℕ → List Particle → List Particle
  | 0, ps => ps
  | Nat.succ k, ps => tickN C G dt k (tick C G dt ps)

/-- Total mass of a population. -/
noncomputable def massTotal (ps : List Particle) : ℝ :=
  (ps.map Particle.mass).sum

/-- Total linear momentum of a population. -/
noncomputable def momentum (ps : List Particle) : Vec3 :=
  (ps.map (fun p => p.mass • p.velocity)).sum

/-- Mass-weighted position sum of a population. -/
noncomputable def weightedPos (ps : List Particle) : Vec3 :=
  (ps.map (fun p => p.mass • p.position)).sum

/-- Center of mass of the whole population. -/
noncomputable def comOf (ps : List Particle) : Vec3 :=
  (massTotal ps)⁻¹ • weightedPos ps

/-- Integration never touches the mass field. -/
lemma integrate_mass (dt : ℝ) (F : Vec3) (p : Particle) :
    (integrate dt F p).mass = p.mass := rfl

/-- One tick leaves the per-particle mass sequence unchanged. -/
lemma tick_map_mass (C : Consts) (G : ℕ) (dt : ℝ) (ps : List Particle) :
    (tick C G dt ps).map Particle.mass = ps.map Particle.mass := by
  unfold tick
  rw [List.map_ofFn]
  conv_rhs => rw [← List.ofFn_get ps, List.map_ofFn]
  rfl

/-- Any number of ticks leaves the per-particle mass sequence unchanged. -/
lemma tickN_map_mass (C : Consts) (G : ℕ) (dt : ℝ) :
    ∀ (k : ℕ) (ps : List Particle),
      (tickN C G dt k ps).map Particle.mass = ps.map Particle.mass := by
  intro k
  induction k with
  | zero => intro ps; rfl
  | succ n ih =>
    intro ps
    show (tickN C G dt n (tick C G dt ps)).map Particle.mass = _
    rw [ih, tick_map_mass]

/-- Positivity of every mass transfers along an equal mass sequence. -/
lemma pos_of_map_mass_eq {ps qs : List Particle}
    (h : qs.map Particle.mass = ps.map Particle.mass)
    (hpos : ∀ p ∈ ps, 0 < p.mass) : ∀ q ∈ qs, 0 < q.mass := by
  intro q hq
  have hmem : q.mass ∈ qs.map Particle.mass := List.mem_map_of_mem _ hq
  rw [h] at hmem
  rcases List.mem_map.mp hmem with ⟨p, hp, hpe⟩
  rw [← hpe]
  exact hpos p hp

/-- A sample particle used to evaluate theorems at concrete inputs. -/
def pW1 : Particle :=
  { mass := 2, charge := 1, position := (0, 0, 0), velocity := (2, 0, 0)
    acceleration := (0, 0, 0), angular_velocity := (0, 0, 0)
    angular_acceleration := (0, 0, 0) }

/-- A second sample particle used to evaluate theorems at concrete
inputs. -/
def pW2 : Particle :=
  { mass := 4, charge := -1, position := (3, 4, 0), velocity := (-1, 0, 0)
    acceleration := (0, 0, 0), angular_velocity := (0, 0, 0)
    angular_acceleration := (0, 0, 0) }

/-- A sample force vector used to evaluate theorems at concrete inputs. -/
def vW : Vec3 := (1, 0, 0)

/-- C1: decoding a 4-component packed value into a `CenterOfMass` and
re-encoding it reproduces all four components exactly, and conversely
encoding then decoding reproduces the aggregate: encode and decode are
mutual inverses. -/
theorem encode_decode_roundtrip :
    (∀ v : Float4, (CenterOfMass.ofEncoded v).encode = v) ∧
    (∀ c : CenterOfMass, CenterOfMass.ofEncoded c.encode = c) :=
  ⟨fun _ => rfl, fun _ => rfl⟩

/-- C10: the decoding constructor performs no validation: it
unconditionally copies the first three components into `pos` and the
fourth into `total_mass`, so a negative fourth component yields an
aggregate with `total_mass < 0`. -/
theorem decode_no_validation (v : Float4) :
    (CenterOfMass.ofEncoded v).pos = (v.x, v.y, v.z) ∧
    (CenterOfMass.ofEncoded v).total_mass = v.w ∧
    (v.w < 0 → (CenterOfMass.ofEncoded v).total_mass < 0) :=
  ⟨rfl, rfl, fun h => h⟩

/-- C2: store creation fails with `CapacityExceeded` exactly when the
population length exceeds `MAX_PARTICLES` (= 20000), and whenever a store
is created the whole population fit within the capacity and is stored as
given (no partial store exists on failure). -/
theorem create_capacity (population : List Particle) :
    (PStore.create population = .error .CapacityExceeded ↔
      MAX_PARTICLES < population.length) ∧
    (∀ s, PStore.create population = .ok s →
      population.length ≤ MAX_PARTICLES ∧ s.particles = population) := by
  unfold PStore.create
  constructor
  · constructor
    · intro h
      by_contra hlen
      rw [if_neg hlen] at h
      split_ifs at h with hm
      simp at h
    · intro h
      rw [if_pos h]
  · intro s hs
    split_ifs at hs with h1 h2
    · cases hs
      exact ⟨Nat.le_of_not_lt h1, rfl⟩

/-- C3: every stored particle has positive mass at all times: creation
rejects any population containing a non-positive mass; a created store
holds only positive-mass particles; `set` preserves the invariant; a tick
(reduce, force accumulation, integration) never drives any stored mass
non-positive. -/
theorem mass_positive_invariant :
    (∀ population s, PStore.create population = .ok s →
      ∀ p ∈ s.particles, 0 < p.mass) ∧
    (∀ population, (∃ p ∈ population, p.mass ≤ 0) →
      ∀ s, PStore.create population ≠ .ok s) ∧
    (∀ s i q s', PStore.set s i q = .ok s' →
      (∀ p ∈ s.particles, 0 < p.mass) → ∀ p ∈ s'.particles, 0 < p.mass) ∧
    (∀ C G dt ps, (∀ p ∈ ps, 0 < p.mass) →
      ∀ p ∈ tick C G dt ps, 0 < p.mass) := by
  refine ⟨?_, ?_, ?_, ?_⟩
  · intro population s hs
    unfold PStore.create at hs
    split_ifs at hs with h1 h2
    cases hs
    exact h2
  · intro population hbad s hs
    unfold PStore.create at hs
    split_ifs at hs with h1 h2
    rcases hbad with ⟨p, hp, hple⟩
    exact absurd (h2 p hp) (not_lt.mpr hple)
  · intro s i q s' hs hpos
    unfold PStore.set at hs
    split_ifs at hs with h1 h2
    cases hs
    intro p hp
    rcases List.mem_or_eq_of_mem_set hp with hmem | rfl
    · exact hpos p hmem
    · exact h2
  · intro C G dt ps hpos
    exact pos_of_map_mass_eq (tick_map_mass C G dt ps) hpos

/-- C4: one Integrator step at timestep `dt` for a particle of positive
mass with accumulated net force `F` sets the new acceleration to `F / m`,
the new velocity to the old velocity plus the *new* acceleration times
`dt`, and the new position to the old position plus the *new* velocity
times `dt` (semi-implicit Euler ordering). -/
theorem integrate_semi_implicit (dt : ℝ) (F : Vec3) (p : Particle)
    (hm : 0 < p.mass) :
    (integrate dt F p).acceleration = p.mass⁻¹ • F ∧
    (integrate dt F p).velocity =
      p.velocity + dt • (integrate dt F p).acceleration ∧
    (integrate dt F p).position =
      p.position + dt • (integrate dt F p).velocity :=
  ⟨rfl, rfl, rfl⟩

/-- Witness for C4: the integrator step evaluated at a concrete particle,
force and timestep. -/
theorem integrate_semi_implicit_check :
    0 < pW1.mass ∧
    ((integrate 1 vW pW1).acceleration = pW1.mass⁻¹ • vW ∧
     (integrate 1 vW pW1).velocity =
       pW1.velocity + (1 : ℝ) • (integrate 1 vW pW1).acceleration ∧
     (integrate 1 vW pW1).position =
       pW1.position + (1 : ℝ) • (integrate 1 vW pW1).velocity) :=
  ⟨by norm_num [pW1], integrate_semi_implicit 1 vW pW1 (by norm_num [pW1])⟩

/-- C8: across any number of ticks the per-particle masses, and hence the
total system mass, are unchanged: no stage of a tick creates or destroys
mass. -/
theorem mass_conserved (C : Consts) (G : ℕ) (dt : ℝ) (k : ℕ)
    (ps : List Particle) :
    (tickN C G dt k ps).map Particle.mass = ps.map Particle.mass ∧
    massTotal (tickN C G dt k ps) = massTotal ps := by
  refine ⟨tickN_map_mass C G dt k ps, ?_⟩
  unfold massTotal
  rw [tickN_map_mass C G dt k ps]

/-- Every particle index belongs to a group id below the group count. -/
lemma div_lt_numGroups {G n i : ℕ} (hG : 0 < G) (hi : i < n) :
    i / G < numGroups G n := by
  unfold numGroups
  have hn : n + G - 1 = (n - 1) + G := by omega
  rw [hn, Nat.add_div_right _ hG]
  exact Nat.lt_succ_of_le (Nat.div_le_div_right (by omega))

/-- The length of a group's slice: `G`, except for the ragged final
group. -/
lemma groupSlice_length (G : ℕ) (ps : List Particle) (k : ℕ) :
    (groupSlice G ps k).length = min G (ps.length - k * G) := by
  unfold groupSlice
  rw [List.length_take, List.length_drop]

/-- C5: at any positive group size `G` the reducer partitions the index
space `[0, N)` into contiguous groups: one aggregate per group id; the
aggregate of group `k` has total mass equal to the sum of the masses of
exactly the particles of slice `k` and position equal to their
mass-weighted centroid; slice `k` has length `G` (ragged at the end,
clipped to `N` so no index at or beyond `N` is read), its `j`-th particle
is exactly the store's particle `k*G + j`, and every index below `N` falls
in some group id below the group count. -/
theorem reduce_partition (G : ℕ) (ps : List Particle) (hG : 0 < G) :
    (reduce G ps).length = numGroups G ps.length ∧
    (∀ k (hk : k < (reduce G ps).length),
      (reduce G ps).get ⟨k, hk⟩ = reduceGroup (groupSlice G ps k)) ∧
    (∀ k (hk : k < (reduce G ps).length),
      ((reduce G ps).get ⟨k, hk⟩).total_mass =
        ((groupSlice G ps k).map Particle.mass).sum) ∧
    (∀ k (hk : k < (reduce G ps).length),
      ((reduce G ps).get ⟨k, hk⟩).pos =
        (((groupSlice G ps k).map Particle.mass).sum)⁻¹ •
          ((groupSlice G ps k).map (fun p => p.mass • p.position)).sum) ∧
    (∀ k, (groupSlice G ps k).length = min G (ps.length - k * G)) ∧
    (∀ k j (hj : j < (groupSlice G ps k).length),
      ∃ h2 : k * G + j < ps.length,
        (groupSlice G ps k).get ⟨j, hj⟩ = ps.get ⟨k * G + j, h2⟩) ∧
    (∀ i, i < ps.length → i / G < numGroups G ps.length) := by
  have hget : ∀ k (hk : k < (reduce G ps).length),
      (reduce G ps).get ⟨k, hk⟩ = reduceGroup (groupSlice G ps k) := by
    intro k hk
    unfold reduce at hk ⊢
    rw [List.get_eq_getElem]
    rw [List.getElem_map, List.getElem_range]
  refine ⟨?_, hget, ?_, ?_, groupSlice_length G ps, ?_, ?_⟩
  · unfold reduce
    rw [List.length_map, List.length_range]
  · intro k hk
    rw [hget k hk]
    rfl
  · intro k hk
    rw [hget k hk]
    rfl
  · intro k j hj
    have hlen := groupSlice_length G ps k
    have h2 : k * G + j < ps.length := by
      rw [hlen] at hj
      omega
    refine ⟨h2, ?_⟩
    unfold groupSlice
    rw [List.get_eq_getElem, List.get_eq_getElem]
    rw [List.getElem_take, List.getElem_drop]
  · intro i hi
    exact div_lt_numGroups hG hi

/-- Witness for C5: the reducer evaluated on a three-particle population
at group size 2 (a full group and a ragged final group). -/
theorem reduce_partition_check :
    0 < 2 ∧
    ((reduce 2 [pW1, pW2, pW1]).length = numGroups 2 3 ∧
     (∀ k (hk : k < (reduce 2 [pW1, pW2, pW1]).length),
       (reduce 2 [pW1, pW2, pW1]).get ⟨k, hk⟩ =
         reduceGroup (groupSlice 2 [pW1, pW2, pW1] k)) ∧
     (∀ k (hk : k < (reduce 2 [pW1, pW2, pW1]).length),
       ((reduce 2 [pW1, pW2, pW1]).get ⟨k, hk⟩).total_mass =
         ((groupSlice 2 [pW1, pW2, pW1] k).map Particle.mass).sum) ∧
     (∀ k (hk : k < (reduce 2 [pW1, pW2, pW1]).length),
       ((reduce 2 [pW1, pW2, pW1]).get ⟨k, hk⟩).pos =
         (((groupSlice 2 [pW1, pW2, pW1] k).map Particle.mass).sum)⁻¹ •
           ((groupSlice 2 [pW1, pW2, pW1] k).map
             (fun p => p.mass • p.position)).sum) ∧
     (∀ k, (groupSlice 2 [pW1, pW2, pW1] k).length = min 2 (3 - k * 2)) ∧
     (∀ k j (hj : j < (groupSlice 2 [pW1, pW2, pW1] k).length),
       ∃ h2 : k * 2 + j < ([pW1, pW2, pW1] : List Particle).length,
         (groupSlice 2 [pW1, pW2, pW1] k).get ⟨j, hj⟩ =
           ([pW1, pW2, pW1] : List Particle).get ⟨k * 2 + j, h2⟩) ∧
     (∀ i, i < ([pW1, pW2, pW1] : List Particle).length →
       i / 2 < numGroups 2 3)) :=
  ⟨by norm_num, reduce_partition 2 [pW1, pW2, pW1] (by norm_num)⟩

/-- Componentwise description of equality of 3-vectors. -/
lemma vec3_eq_iff (v w : Vec3) :
    v = w ↔ v.1 = w.1 ∧ v.2.1 = w.2.1 ∧ v.2.2 = w.2.2 := by
  rw [Prod.ext_iff, Prod.ext_iff]

/-- The squared length is nonnegative. -/
lemma norm2_nonneg (v : Vec3) : 0 ≤ norm2 v := by
  unfold norm2 dot
  nlinarith [mul_self_nonneg v.1, mul_self_nonneg v.2.1, mul_self_nonneg v.2.2]

/-- The squared length vanishes only at the zero vector. -/
lemma norm2_eq_zero {v : Vec3} : norm2 v = 0 ↔ v = 0 := by
  constructor
  · intro h
    unfold norm2 dot at h
    have h1 : v.1 * v.1 = 0 := by
      nlinarith [mul_self_nonneg v.1, mul_self_nonneg v.2.1, mul_self_nonneg v.2.2]
    have h2 : v.2.1 * v.2.1 = 0 := by
      nlinarith [mul_self_nonneg v.1, mul_self_nonneg v.2.1, mul_self_nonneg v.2.2]
    have h3 : v.2.2 * v.2.2 = 0 := by
      nlinarith [mul_self_nonneg v.1, mul_self_nonneg v.2.1, mul_self_nonneg v.2.2]
    rw [vec3_eq_iff]
    exact ⟨mul_self_eq_zero.mp h1, mul_self_eq_zero.mp h2, mul_self_eq_zero.mp h3⟩
  · intro h
    rw [h]
    unfold norm2 dot
    norm_num

/-- Negation preserves the squared length. -/
lemma norm2_neg (v : Vec3) : norm2 (-v) = norm2 v := by
  unfold norm2 dot
  simp only [Prod.fst_neg, Prod.snd_neg]
  ring

/-- Squared length of a scalar multiple. -/
lemma norm2_smul (c : ℝ) (v : Vec3) : norm2 (c • v) = c ^ 2 * norm2 v := by
  unfold norm2 dot
  simp only [Prod.smul_fst, Prod.smul_snd, smul_eq_mul]
  ring

/-- The length is nonnegative. -/
lemma vnorm_nonneg (v : Vec3) : 0 ≤ vnorm v := Real.sqrt_nonneg _

/-- The length vanishes only at the zero vector. -/
lemma vnorm_eq_zero {v : Vec3} : vnorm v = 0 ↔ v = 0 := by
  unfold vnorm
  rw [Real.sqrt_eq_zero (norm2_nonneg v)]
  exact norm2_eq_zero

/-- A nonzero vector has positive length. -/
lemma vnorm_pos {v : Vec3} (h : v ≠ 0) : 0 < vnorm v :=
  lt_of_le_of_ne (vnorm_nonneg v) (fun he => h (vnorm_eq_zero.mp he.symm))

/-- Negation preserves the length. -/
lemma vnorm_neg (v : Vec3) : vnorm (-v) = vnorm v := by
  unfold vnorm
  rw [norm2_neg]

/-- Length of a scalar multiple. -/
lemma vnorm_smul (c : ℝ) (v : Vec3) : vnorm (c • v) = |c| * vnorm v := by
  unfold vnorm
  rw [norm2_smul, Real.sqrt_mul (sq_nonneg c), Real.sqrt_sq_eq_abs]

/-- The direction vector between distinct points has unit length. -/
lemma vnorm_unitDir {a b : Vec3} (h : b - a ≠ 0) :
    vnorm (unitDir a b) = 1 := by
  unfold unitDir
  rw [vnorm_smul, abs_inv, abs_of_nonneg (vnorm_nonneg _)]
  exact inv_mul_cancel₀ (ne_of_gt (vnorm_pos h))

/-- Swapping the endpoints flips the direction vector. -/
lemma unitDir_symm (a b : Vec3) : unitDir b a = -unitDir a b := by
  unfold unitDir
  rw [show a - b = -(b - a) from (neg_sub b a).symm, vnorm_neg, smul_neg]

/-- Squared distance is symmetric. -/
lemma dist2_symm (a b : Vec3) : dist2 a b = dist2 b a := by
  unfold dist2
  rw [show a - b = -(b - a) from (neg_sub b a).symm, norm2_neg]

/-- Squared distance is nonnegative. -/
lemma dist2_nonneg (a b : Vec3) : 0 ≤ dist2 a b := norm2_nonneg _

/-- The gravitational pair term obeys Newton's third law. -/
lemma gravForce_antisymm (C : Consts) (p q : Particle) :
    gravForce C q p = -gravForce C p q := by
  unfold gravForce
  rw [dist2_symm q.position p.position, unitDir_symm p.position q.position,
    smul_neg, show C.G_const * q.mass * p.mass = C.G_const * p.mass * q.mass
      from by ring]

/-- The Coulomb pair term obeys Newton's third law. -/
lemma coulombForce_antisymm (C : Consts) (p q : Particle) :
    coulombForce C q p = -coulombForce C p q := by
  unfold coulombForce
  rw [dist2_symm q.position p.position, unitDir_symm p.position q.position,
    smul_neg, show -(C.k_e * q.charge * p.charge) = -(C.k_e * p.charge * q.charge)
      from by ring]

/-- The combined pair force obeys Newton's third law. -/
lemma pairForce_antisymm (C : Consts) (p q : Particle) :
    pairForce C q p = -pairForce C p q := by
  unfold pairForce
  rw [gravForce_antisymm, coulombForce_antisymm, neg_add]

/-- A sample constant set used to evaluate theorems at concrete inputs. -/
def CW : Consts := { G_const := 1, k_e := 1, softening := 1 }

/-- C6: the near-field force on particle `i` sums the pair contribution of
every *other* particle of the same group (the self-pair is not in the
summation index set); each pair contribution of `q` to `p` is the sum of a
gravitational term and a Coulomb term; when the two particles occupy
distinct positions, the gravitational term has magnitude
`G_const * m_p * m_q / (r² + softening)` and points attractively from `p`
toward `q`, and the Coulomb term has magnitude
`k_e * |q_p * q_q| / (r² + softening)` along the same line, repulsive for
same-sign charges and attractive for opposite-sign charges; the softening
constant is added to `r²` in both terms. -/
theorem near_field_pairwise (C : Consts) (G : ℕ) (ps : List Particle)
    (i j : Fin ps.length) (hij : j ≠ i)
    (hgrp : j.val / G = i.val / G)
    (hsoft : 0 < C.softening) (hG : 0 < C.G_const)
    (hm : 0 < (ps.get i).mass) (hm' : 0 < (ps.get j).mass)
    (hpos : (ps.get j).position ≠ (ps.get i).position) :
    (nearForce C G ps i =
      ∑ j' ∈ Finset.univ.filter
        (fun j' : Fin ps.length => j' ≠ i ∧ j'.val / G = i.val / G),
        pairForce C (ps.get i) (ps.get j')) ∧
    (i ∉ Finset.univ.filter
        (fun j' : Fin ps.length => j' ≠ i ∧ j'.val / G = i.val / G)) ∧
    (pairForce C (ps.get i) (ps.get j) =
      gravForce C (ps.get i) (ps.get j) +
        coulombForce C (ps.get i) (ps.get j)) ∧
    (vnorm (gravForce C (ps.get i) (ps.get j)) =
      C.G_const * (ps.get i).mass * (ps.get j).mass /
        (dist2 (ps.get i).position (ps.get j).position + C.softening)) ∧
    (∃ c : ℝ, 0 < c ∧ gravForce C (ps.get i) (ps.get j) =
      c • ((ps.get j).position - (ps.get i).position)) ∧
    (vnorm (coulombForce C (ps.get i) (ps.get j)) =
      |C.k_e * (ps.get i).charge * (ps.get j).charge| /
        (dist2 (ps.get i).position (ps.get j).position + C.softening)) ∧
    (0 < C.k_e * (ps.get i).charge * (ps.get j).charge →
      ∃ c : ℝ, c < 0 ∧ coulombForce C (ps.get i) (ps.get j) =
        c • ((ps.get j).position - (ps.get i).position)) ∧
    (C.k_e * (ps.get i).charge * (ps.get j).charge < 0 →
      ∃ c : ℝ, 0 < c ∧ coulombForce C (ps.get i) (ps.get j) =
        c • ((ps.get j).position - (ps.get i).position)) := by
  set p := ps.get i with hp
  set q := ps.get j with hq
  have hdiff : q.position - p.position ≠ 0 :=
    sub_ne_zero.mpr hpos
  have hden : 0 < dist2 p.position q.position + C.softening :=
    add_pos_of_nonneg_of_pos (dist2_nonneg _ _) hsoft
  have hdist : vnorm (q.position - p.position) ≠ 0 :=
    ne_of_gt (vnorm_pos hdiff)
  have hunit : vnorm (unitDir p.position q.position) = 1 :=
    vnorm_unitDir hdiff
  refine ⟨?_, ?_, rfl, ?_, ?_, ?_, ?_, ?_⟩
  · unfold nearForce
    rw [Finset.sum_filter]
  · intro hmem
    rcases Finset.mem_filter.mp hmem with ⟨-, hcontra, -⟩
    exact hcontra rfl
  · unfold gravForce
    rw [vnorm_smul, hunit, mul_one, abs_div,
      abs_of_pos (by positivity : (0:ℝ) < C.G_const * p.mass * q.mass),
      abs_of_pos hden]
  · refine ⟨C.G_const * p.mass * q.mass /
        (dist2 p.position q.position + C.softening) *
        (vnorm (q.position - p.position))⁻¹, ?_, ?_⟩
    · have h1 : 0 < C.G_const * p.mass * q.mass /
          (dist2 p.position q.position + C.softening) := by positivity
      have h2 : 0 < (vnorm (q.position - p.position))⁻¹ :=
        inv_pos.mpr (vnorm_pos hdiff)
      exact mul_pos h1 h2
    · unfold gravForce unitDir
      rw [smul_smul]
  · unfold coulombForce
    rw [vnorm_smul, hunit, mul_one, abs_div, abs_neg,
      abs_of_pos hden]
  · intro hsign
    refine ⟨-(C.k_e * p.charge * q.charge) /
        (dist2 p.position q.position + C.softening) *
        (vnorm (q.position - p.position))⁻¹, ?_, ?_⟩
    · have h1 : -(C.k_e * p.charge * q.charge) /
          (dist2 p.position q.position + C.softening) < 0 :=
        div_neg_of_neg_of_pos (neg_neg_of_pos hsign) hden
      have h2 : 0 < (vnorm (q.position - p.position))⁻¹ :=
        inv_pos.mpr (vnorm_pos hdiff)
      exact mul_neg_of_neg_of_pos h1 h2
    · unfold coulombForce unitDir
      rw [smul_smul]
  · intro hsign
    refine ⟨-(C.k_e * p.charge * q.charge) /
        (dist2 p.position q.position + C.softening) *
        (vnorm (q.position - p.position))⁻¹, ?_, ?_⟩
    · have h1 : 0 < -(C.k_e * p.charge * q.charge) /
          (dist2 p.position q.position + C.softening) :=
        div_pos (neg_pos.mpr hsign) hden
      have h2 : 0 < (vnorm (q.position - p.position))⁻¹ :=
        inv_pos.mpr (vnorm_pos hdiff)
      exact mul_pos h1 h2
    · unfold coulombForce unitDir
      rw [smul_smul]

/-- Witness for C6: the pair decomposition evaluated for two concrete
particles of one group. -/
theorem near_field_pairwise_check :
    pairForce CW pW1 pW2 = gravForce CW pW1 pW2 + coulombForce CW pW1 pW2 :=
  (near_field_pairwise CW 2 [pW1, pW2] ⟨0, by norm_num⟩ ⟨1, by norm_num⟩
    (by decide) (by norm_num)
    (by norm_num [CW]) (by norm_num [CW])
    (show (0:ℝ) < pW1.mass by norm_num [pW1])
    (show (0:ℝ) < pW2.mass by norm_num [pW2])
    (show pW2.position ≠ pW1.position by
      simp only [pW1, pW2, vec3_eq_iff]
      norm_num)).2.2.1

/-- Aggregates agreeing in both fields are equal. -/
lemma com_ext {a b : CenterOfMass} (hp : a.pos = b.pos)
    (hm : a.total_mass = b.total_mass) : a = b := by
  cases a
  cases b
  cases hp
  cases hm
  rfl

/-- The far field only reads an aggregate's total mass, and its position
only when that total mass is nonzero: replacing every zero-mass
aggregate's position slot arbitrarily leaves the far field unchanged. -/
lemma farForce_congr (C : Consts) (g : ℕ) (p : Particle)
    (aggs aggs' : List CenterOfMass) (h : aggs'.length = aggs.length)
    (hfields : ∀ k (hk : k < aggs.length) (hk' : k < aggs'.length),
      (aggs'.get ⟨k, hk'⟩).total_mass = (aggs.get ⟨k, hk⟩).total_mass ∧
      ((aggs.get ⟨k, hk⟩).total_mass ≠ 0 →
        (aggs'.get ⟨k, hk'⟩).pos = (aggs.get ⟨k, hk⟩).pos)) :
    farForce C aggs' g p = farForce C aggs g p := by
  unfold farForce
  rw [← Fin.sum_congr' _ h]
  refine Finset.sum_congr rfl (fun k _ => ?_)
  have hk' : k.val < aggs'.length := k.isLt
  have hk : k.val < aggs.length := h ▸ k.isLt
  obtain ⟨hmass, hpos⟩ := hfields k.val hk hk'
  have hget' : aggs'.get k = aggs'.get ⟨k.val, hk'⟩ := rfl
  have hcast : aggs.get (Fin.cast h k) = aggs.get ⟨k.val, hk⟩ := rfl
  rw [hget', hcast]
  simp only [Fin.coe_cast]
  by_cases hc : k.val ≠ g ∧ (aggs.get ⟨k.val, hk⟩).total_mass ≠ 0
  · rw [if_pos hc, if_pos ⟨hc.1, by rw [hmass]; exact hc.2⟩]
    exact congrArg (aggForce C p) (com_ext (hpos hc.2) hmass)
  · rw [if_neg hc, if_neg ?_]
    intro hcond
    exact hc ⟨hcond.1, by rw [← hmass]; exact hcond.2⟩

/-- C7: the far-field force on a particle `p` of group `g` sums, over
exactly the other groups of nonzero aggregate total mass, the purely
gravitational softened inverse-square contribution of a virtual particle
of the group's total mass at the group's position; groups of zero total
mass contribute nothing and their (undefined) position slots are never
read; no Coulomb far-field contribution exists: the far field is
independent of every charge. -/
theorem far_field_aggregates (C : Consts) (aggs : List CenterOfMass)
    (g : ℕ) (p : Particle) :
    (farForce C aggs g p =
      ∑ k ∈ Finset.univ.filter
        (fun k : Fin aggs.length =>
          k.val ≠ g ∧ (aggs.get k).total_mass ≠ 0),
        aggForce C p (aggs.get k)) ∧
    (∀ com : CenterOfMass, aggForce C p com =
      (C.G_const * p.mass * com.total_mass /
        (dist2 p.position com.pos + C.softening)) •
        unitDir p.position com.pos) ∧
    (∀ aggs' : List CenterOfMass, aggs'.length = aggs.length →
      (∀ k (hk : k < aggs.length) (hk' : k < aggs'.length),
        (aggs'.get ⟨k, hk'⟩).total_mass = (aggs.get ⟨k, hk⟩).total_mass ∧
        ((aggs.get ⟨k, hk⟩).total_mass ≠ 0 →
          (aggs'.get ⟨k, hk'⟩).pos = (aggs.get ⟨k, hk⟩).pos)) →
      farForce C aggs' g p = farForce C aggs g p) ∧
    (∀ c : ℝ, farForce C aggs g p =
      farForce C aggs g { p with charge := c }) := by
  refine ⟨?_, fun _ => rfl, ?_, fun _ => rfl⟩
  · unfold farForce
    rw [Finset.sum_filter]
  · intro aggs' hlen hfields
    exact farForce_congr C g p aggs aggs' hlen hfields

/-- Two particles at group size at least 2 form exactly one group. -/
lemma numGroups_two {G : ℕ} (hG : 2 ≤ G) : numGroups G 2 = 1 := by
  unfold numGroups
  refine Nat.div_eq_of_lt_le ?_ ?_ <;> omega

/-- With a single aggregate, the far field of group 0 vanishes (the only
candidate group is the particle's own). -/
lemma farForce_single (C : Consts) (aggs : List CenterOfMass)
    (p : Particle) (h : aggs.length = 1) (g : ℕ) (hg : g = 0) :
    farForce C aggs g p = 0 := by
  subst hg
  unfold farForce
  refine Finset.sum_eq_zero (fun k _ => ?_)
  have hk : k.val < 1 := lt_of_lt_of_le k.isLt h.le
  rw [if_neg]
  intro hcond
  exact hcond.1 (by omega)

/-- The near field of the first of two particles sharing one group is the
pair force exerted by the second. -/
lemma nearForce_pair_left (C : Consts) (G : ℕ) (p1 p2 : Particle)
    (hG : 2 ≤ G) :
    nearForce C G [p1, p2] ⟨0, by norm_num⟩ = pairForce C p1 p2 := by
  have h1G : (1 : ℕ) / G = 0 := Nat.div_eq_of_lt (by omega)
  have hrepr : nearForce C G [p1, p2] ⟨0, by norm_num⟩ =
      ∑ j : Fin 2,
        if j ≠ (0 : Fin 2) ∧ j.val / G = 0 / G then
          pairForce C p1 (([p1, p2] : List Particle).get ⟨j.val, j.isLt⟩)
        else 0 := rfl
  rw [hrepr, Fin.sum_univ_two]
  norm_num [Fin.ext_iff, h1G]

/-- The near field of the second of two particles sharing one group is the
pair force exerted by the first. -/
lemma nearForce_pair_right (C : Consts) (G : ℕ) (p1 p2 : Particle)
    (hG : 2 ≤ G) :
    nearForce C G [p1, p2] ⟨1, by norm_num⟩ = pairForce C p2 p1 := by
  have h1G : (1 : ℕ) / G = 0 := Nat.div_eq_of_lt (by omega)
  have hrepr : nearForce C G [p1, p2] ⟨1, by norm_num⟩ =
      ∑ j : Fin 2,
        if j ≠ (1 : Fin 2) ∧ j.val / G = 1 / G then
          pairForce C p2 (([p1, p2] : List Particle).get ⟨j.val, j.isLt⟩)
        else 0 := rfl
  rw [hrepr, Fin.sum_univ_two]
  norm_num [Fin.ext_iff, h1G]

/-- One tick of a two-particle population in a single group applies to
each particle exactly the pair force exerted by the other. -/
lemma tick_two (C : Consts) (G : ℕ) (dt : ℝ) (p1 p2 : Particle)
    (hG : 2 ≤ G) :
    tick C G dt [p1, p2] =
      [integrate dt (pairForce C p1 p2) p1,
       integrate dt (pairForce C p2 p1) p2] := by
  have hagg : (reduce G [p1, p2]).length = 1 := by
    unfold reduce
    rw [List.length_map, List.length_range]
    exact numGroups_two hG
  have h0 : totalForce C G [p1, p2] (reduce G [p1, p2]) ⟨0, by norm_num⟩ =
      pairForce C p1 p2 := by
    unfold totalForce
    rw [nearForce_pair_left C G p1 p2 hG,
      farForce_single C _ _ hagg _ (Nat.zero_div G), add_zero]
  have h1 : totalForce C G [p1, p2] (reduce G [p1, p2]) ⟨1, by norm_num⟩ =
      pairForce C p2 p1 := by
    unfold totalForce
    rw [nearForce_pair_right C G p1 p2 hG,
      farForce_single C _ _ hagg _
        (Nat.div_eq_of_lt (show (1 : ℕ) < G by omega)), add_zero]
  show List.ofFn (fun i : Fin 2 =>
      integrate dt
        (totalForce C G [p1, p2] (reduce G [p1, p2]) ⟨i.val, i.isLt⟩)
        (([p1, p2] : List Particle).get ⟨i.val, i.isLt⟩)) = _
  rw [List.ofFn_succ, List.ofFn_succ, List.ofFn_zero]
  have e0 : integrate dt
      (totalForce C G [p1, p2] (reduce G [p1, p2]) ⟨0, by norm_num⟩) p1 =
      integrate dt (pairForce C p1 p2) p1 := by rw [h0]
  have e1 : integrate dt
      (totalForce C G [p1, p2] (reduce G [p1, p2]) ⟨1, by norm_num⟩) p2 =
      integrate dt (pairForce C p2 p1) p2 := by rw [h1]
  exact congrArg₂ (fun a b => [a, b]) e0 e1

/-- One tick of a single-group two-particle system with nonzero masses
preserves zero total momentum and, granted it, the mass-weighted position
sum; masses themselves are unchanged. -/
lemma tick_pair_invariants (C : Consts) (G : ℕ) (dt : ℝ)
    (p1 p2 : Particle) (hG : 2 ≤ G)
    (h1 : p1.mass ≠ 0) (h2 : p2.mass ≠ 0)
    (hmom : p1.mass • p1.velocity + p2.mass • p2.velocity = (0 : Vec3)) :
    ∃ q1 q2 : Particle, tick C G dt [p1, p2] = [q1, q2] ∧
      q1.mass = p1.mass ∧ q2.mass = p2.mass ∧
      q1.mass • q1.velocity + q2.mass • q2.velocity = (0 : Vec3) ∧
      q1.mass • q1.position + q2.mass • q2.position =
        p1.mass • p1.position + p2.mass • p2.position := by
  set F := pairForce C p1 p2 with hF
  have c1 : p1.mass * p1.mass⁻¹ = 1 := mul_inv_cancel₀ h1
  have c2 : p2.mass * p2.mass⁻¹ = 1 := mul_inv_cancel₀ h2
  have hanti : pairForce C p2 p1 = -F := pairForce_antisymm C p1 p2
  have hmom' :
      p1.mass • (p1.velocity + dt • (p1.mass⁻¹ • F)) +
        p2.mass • (p2.velocity + dt • (p2.mass⁻¹ • pairForce C p2 p1)) =
        (0 : Vec3) := by
    rw [hanti]
    calc p1.mass • (p1.velocity + dt • (p1.mass⁻¹ • F)) +
          p2.mass • (p2.velocity + dt • (p2.mass⁻¹ • -F))
        = (p1.mass • p1.velocity + p2.mass • p2.velocity) +
            ((p1.mass * p1.mass⁻¹) • (dt • F) -
              (p2.mass * p2.mass⁻¹) • (dt • F)) := by module
      _ = (0 : Vec3) := by rw [c1, c2, hmom, one_smul, sub_self, add_zero]
  refine ⟨integrate dt F p1, integrate dt (pairForce C p2 p1) p2,
    tick_two C G dt p1 p2 hG, rfl, rfl, hmom', ?_⟩
  show p1.mass • (p1.position + dt • (p1.velocity + dt • (p1.mass⁻¹ • F))) +
      p2.mass • (p2.position +
        dt • (p2.velocity + dt • (p2.mass⁻¹ • pairForce C p2 p1))) =
      p1.mass • p1.position + p2.mass • p2.position
  calc p1.mass • (p1.position + dt • (p1.velocity + dt • (p1.mass⁻¹ • F))) +
        p2.mass • (p2.position +
          dt • (p2.velocity + dt • (p2.mass⁻¹ • pairForce C p2 p1)))
      = (p1.mass • p1.position + p2.mass • p2.position) +
          dt • (p1.mass • (p1.velocity + dt • (p1.mass⁻¹ • F)) +
            p2.mass • (p2.velocity +
              dt • (p2.mass⁻¹ • pairForce C p2 p1))) := by module
    _ = p1.mass • p1.position + p2.mass • p2.position := by
        rw [hmom', smul_zero, add_zero]

/-- Any number of ticks of a single-group two-particle system with
nonzero masses and zero total momentum preserves the masses, the zero
momentum and the mass-weighted position sum. -/
lemma tickN_pair (C : Consts) (G : ℕ) (dt : ℝ) (hG : 2 ≤ G) :
    ∀ (k : ℕ) (p1 p2 : Particle), p1.mass ≠ 0 → p2.mass ≠ 0 →
      p1.mass • p1.velocity + p2.mass • p2.velocity = (0 : Vec3) →
      ∃ q1 q2 : Particle, tickN C G dt k [p1, p2] = [q1, q2] ∧
        q1.mass = p1.mass ∧ q2.mass = p2.mass ∧
        q1.mass • q1.velocity + q2.mass • q2.velocity = (0 : Vec3) ∧
        q1.mass • q1.position + q2.mass • q2.position =
          p1.mass • p1.position + p2.mass • p2.position := by
  intro k
  induction k with
  | zero =>
    intro p1 p2 h1 h2 hm
    exact ⟨p1, p2, rfl, rfl, rfl, hm, rfl⟩
  | succ n ih =>
    intro p1 p2 h1 h2 hm
    obtain ⟨q1, q2, heq, hq1, hq2, hqm, hqp⟩ :=
      tick_pair_invariants C G dt p1 p2 hG h1 h2 hm
    obtain ⟨r1, r2, heq', hr1, hr2, hrm, hrp⟩ :=
      ih q1 q2 (by rw [hq1]; exact h1) (by rw [hq2]; exact h2) hqm
    refine ⟨r1, r2, ?_, by rw [hr1, hq1], by rw [hr2, hq2], hrm,
      hrp.trans hqp⟩
    show tickN C G dt n (tick C G dt [p1, p2]) = [r1, r2]
    rw [heq, heq']

/-- C9: for a two-particle population forming one group, with positive
masses and equal-and-opposite initial momenta, the center of mass of the
whole system is unchanged by every tick: the pairwise gravitational and
Coulomb forces are equal in magnitude and opposite in direction, so total
momentum stays zero and the mass-weighted centroid never moves. -/
theorem com_stationary (C : Consts) (G : ℕ) (dt : ℝ) (k : ℕ)
    (p1 p2 : Particle) (hG : 2 ≤ G)
    (h1 : 0 < p1.mass) (h2 : 0 < p2.mass)
    (hmom : p1.mass • p1.velocity + p2.mass • p2.velocity = (0 : Vec3)) :
    comOf (tickN C G dt k [p1, p2]) = comOf [p1, p2] := by
  obtain ⟨q1, q2, heq, hq1, hq2, hqm, hqp⟩ :=
    tickN_pair C G dt hG k p1 p2 (ne_of_gt h1) (ne_of_gt h2) hmom
  rw [heq]
  unfold comOf massTotal weightedPos
  simp only [List.map_cons, List.map_nil, List.sum_cons, List.sum_nil,
    add_zero]
  rw [hqp, hq1, hq2]

/-- Witness for C9: a concrete two-particle system with equal and
opposite momenta keeps its center of mass over a tick. -/
theorem com_stationary_check :
    comOf (tickN CW 2 1 1 [pW1, pW2]) = comOf [pW1, pW2] :=
  com_stationary CW 2 1 1 pW1 pW2 (by norm_num)
    (by norm_num [pW1]) (by norm_num [pW2])
    (by
      show (2 : ℝ) • ((2 : ℝ), (0 : ℝ), (0 : ℝ)) +
        (4 : ℝ) • ((-1 : ℝ), (0 : ℝ), (0 : ℝ)) = 0
      rw [Prod.smul_mk, Prod.smul_mk, Prod.smul_mk, Prod.smul_mk,
        Prod.mk_add_mk, Prod.mk_add_mk]
      norm_num)
